import Mathlib

/-!
Shallow embedding of the dice-elimination simulator (`src/main.rs`).

Machine integers (`u8`, `u64`, `usize`) are modelled as `Nat` (all reachable
values are far below the respective moduli; the relevant bound `score ≤ 87 < 256`
is proved below), `i8` as `Int` (reachable scores lie in `[-32, 12] ⊆ [-128, 127]`).
The random source (`SmallRng`) is modelled as an arbitrary stream `Nat → Nat` of
draws; `rng.random_range(0..n)` on the next draw `r` is modelled as `r % n`,
so every actual sequence of draws corresponds to some stream.
Rust code that can panic (`Vec::swap_remove` with an out-of-range index) is
modelled with `Option`, `none` standing for the panic.
-/

/-- `enum Faces { Six, Eight, Ten, Twelve }`; the derived `Ord` on the Rust enum
orders the variants in declaration order, which coincides with the order of
their `value()`s, so comparisons on `Faces` are modelled via `Faces.value`. -/
inductive Faces where
  | six
  | eight
  | ten
  | twelve
deriving DecidableEq, Repr

/-- `Faces::value` -/
def Faces.value : Faces → Nat
  | .six => 6
  | .eight => 8
  | .ten => 10
  | .twelve => 12

/-- `struct Die { faces: Faces, points: u8 }` -/
structure Die where
  faces : Faces
  points : Nat
deriving DecidableEq, Repr

/-- `Die::six()` — note the fresh die's `points` equals its face count. -/
def Die.six : Die := ⟨Faces.six, 6⟩

/-- `Die::eight()` -/
def Die.eight : Die := ⟨Faces.eight, 8⟩

/-- `Die::ten()` -/
def Die.ten : Die := ⟨Faces.ten, 10⟩

/-- `Die::twelve()` -/
def Die.twelve : Die := ⟨Faces.twelve, 12⟩

/-- `Die::roll`: `self.points = rng.random_range(0..self.faces.value())`,
with the draw `r` from the stream reduced modulo the face count. -/
def Die.rollWith (d : Die) (r : Nat) : Die :=
  { d with points := r % d.faces.value }

/-- The dice of `Game::new()`: twelve six-sided dice then the 8-, 10- and
12-sided specials. -/
def gameNewDice : List Die :=
  List.replicate 12 Die.six ++ [Die.eight, Die.ten, Die.twelve]

/-- `Game::roll_all`: roll every die in order, consuming successive draws
from the stream. -/
def rollAll (g : Nat → Nat) : List Die → List Die
  | [] => []
  | d :: rest => Die.rollWith d (g 0) :: rollAll (fun n => g (n + 1)) rest

/-- Advancing the random stream past `k` consumed draws. -/
def shiftRng (g : Nat → Nat) (k : Nat) : Nat → Nat :=
  fun n => g (n + k)

/-- One step of `indices.sort_unstable_by(|a, b| b.cmp(a))` (descending sort):
insertion into a descending-sorted list.  On `Nat` with its total order the
sorted result is unique, so any correct descending sort models the source. -/
def insertDesc (x : Nat) : List Nat → List Nat
  | [] => [x]
  | y :: ys => if y ≤ x then x :: y :: ys else y :: insertDesc x ys

/-- Descending sort of the index list, as performed by `Game::remove_dice`. -/
def sortDesc : List Nat → List Nat
  | [] => []
  | x :: xs => insertDesc x (sortDesc xs)

/-- `Vec::swap_remove(i)`: returns the element at `i` and the vector with the
last element moved into slot `i`; panics (`none`) when `i` is out of range. -/
def swapRemove (l : List Die) (i : Nat) : Option (Die × List Die) :=
  if h : i < l.length then
    some (l.get ⟨i, h⟩, (l.set i (l.getLastD Die.six)).dropLast)
  else
    none

/-- The loop of `Game::remove_dice` over the (already sorted) indices,
accumulating the removed dice's points. -/
def removeDiceAux : List Nat → List Die → Option (Nat × List Die)
  | [], l => some (0, l)
  | i :: rest, l =>
    match swapRemove l i with
    | none => none
    | some (d, l1) =>
      match removeDiceAux rest l1 with
      | none => none
      | some (p, l2) => some (d.points + p, l2)

/-- `Game::remove_dice`: sort the indices descending, then `swap_remove` each,
returning the summed points of the removed dice and the remaining pool. -/
def remove_dice (l : List Die) (indices : List Nat) : Option (Nat × List Die) :=
  removeDiceAux (sortDesc indices) l

/-- `type Strategy = fn(&[Die]) -> Vec<usize>` -/
abbrev Strategy := List Die → List Nat

/-- `iter().enumerate().filter(p).map(|(i, _)| i).collect()`, starting the
enumeration at `i`. -/
def filterIdxFrom (p : Die → Bool) : Nat → List Die → List Nat
  | _, [] => []
  | i, d :: rest =>
    if p d then i :: filterIdxFrom p (i + 1) rest else filterIdxFrom p (i + 1) rest

/-- `find_zero_point_dice` -/
def find_zero_point_dice (dice : List Die) : List Nat :=
  filterIdxFrom (fun d => d.points == 0) 0 dice

/-- `find_big_zero_dice` -/
def find_big_zero_dice (dice : List Die) : List Nat :=
  filterIdxFrom (fun d => d.points == 0 && !(d.faces == Faces.six)) 0 dice

/-- The loop of `find_min_points_die`: running best points (starting at
`u8::MAX = 255`) and best index (starting at `0`), updated on strict
improvement. -/
def findMinAux : List Die → Nat → Nat → Nat → Nat
  | [], _, _, bi => bi
  | d :: rest, i, bp, bi =>
    if d.points < bp then findMinAux rest (i + 1) d.points i
    else findMinAux rest (i + 1) bp bi

/-- `find_min_points_die` -/
def find_min_points_die (dice : List Die) : Nat :=
  findMinAux dice 0 255 0

/-- The comparator of `find_big_min_die` rendered as "strictly less": points
compared first, ties broken by the *larger* face count being smaller. -/
def dieLt (a b : Die) : Bool :=
  a.points < b.points || (a.points == b.points && b.faces.value < a.faces.value)

/-- The fold of `Iterator::min_by` (first of equal minima is kept): the
accumulator is replaced only by a strictly smaller element. -/
def bigMinAux : List Die → Nat → Nat × Die → Nat
  | [], _, acc => acc.1
  | d :: rest, i, acc =>
    bigMinAux rest (i + 1) (if dieLt d acc.2 then (i, d) else acc)

/-- `find_big_min_die` (source `unwrap`s on an empty slice; it is only ever
called on non-empty pools, and the model returns `0` there). -/
def find_big_min_die : List Die → Nat
  | [] => 0
  | d :: rest => bigMinAux rest 1 (0, d)

/-- `one_min_strategy` -/
def one_min_strategy (dice : List Die) : List Nat :=
  [find_min_points_die dice]

/-- `all_zero_or_one_min_strategy` -/
def all_zero_or_one_min_strategy (dice : List Die) : List Nat :=
  let zero_indices := find_zero_point_dice dice
  if zero_indices.isEmpty then [find_min_points_die dice] else zero_indices

/-- `prio_min_for`: `die.faces.value() as i8 - 4 * die.points() as i8`. -/
def prio_min_for (d : Die) : Int :=
  (d.faces.value : Int) - 4 * (d.points : Int)

/-- The loop of `all_zero_or_prio_min_strategy`: best index, best face count
and best score (starting at `0`, `Six`, `i8::MIN = -128`), replaced when the
score strictly improves or ties with a strictly larger face count. -/
def prioAux : List Die → Nat → Nat × Faces × Int → Nat
  | [], _, acc => acc.1
  | d :: rest, i, (bi, bm, bs) =>
    if bs < prio_min_for d ∨ (prio_min_for d = bs ∧ bm.value < d.faces.value) then
      prioAux rest (i + 1) (i, d.faces, prio_min_for d)
    else
      prioAux rest (i + 1) (bi, bm, bs)

/-- `all_zero_or_prio_min_strategy` -/
def all_zero_or_prio_min_strategy (dice : List Die) : List Nat :=
  let zero_indices := find_zero_point_dice dice
  if zero_indices.isEmpty then [prioAux dice 0 (0, Faces.six, -128)] else zero_indices

/-- `all_zero_or_big_min_strategy` -/
def all_zero_or_big_min_strategy (dice : List Die) : List Nat :=
  let zero_indices := find_zero_point_dice dice
  if zero_indices.isEmpty then [find_big_min_die dice] else zero_indices

/-- `dice.iter().filter(|die| die.faces != Faces::Six).count()` -/
def bigDiceCount (dice : List Die) : Nat :=
  (dice.filter (fun d => !(d.faces == Faces.six))).length

/-- `all_big_zero_or_one_zero_or_big_min_strategy` -/
def all_big_zero_or_one_zero_or_big_min_strategy (dice : List Die) : List Nat :=
  let big_zeros := find_big_zero_dice dice
  if !big_zeros.isEmpty then
    if bigDiceCount dice = big_zeros.length then find_zero_point_dice dice
    else big_zeros
  else
    let all_zeros := find_zero_point_dice dice
    if !all_zeros.isEmpty then
      if bigDiceCount dice = 0 then all_zeros else [all_zeros.headD 0]
    else
      [find_big_min_die dice]

/-- The strategy registry of `main`, in registration order. -/
def strategies : List (String × Strategy) :=
  [("One Min", one_min_strategy),
   ("All Zero/One Min", all_zero_or_one_min_strategy),
   ("All Zero/Prio Min", all_zero_or_prio_min_strategy),
   ("All Zero/Big Min", all_zero_or_big_min_strategy),
   ("All Big Zero/One Zero/Big Min", all_big_zero_or_one_zero_or_big_min_strategy)]

/-- The loop of `simulate_game` (`while !game.is_over() { roll_all; strategy;
remove_dice }`), indexed by the number of rounds still allowed.  `none` stands
for "a round paniced or the game did not finish within `fuel` rounds". -/
def simRounds (s : Strategy) : Nat → (Nat → Nat) → List Die → Option Nat
  | 0, _, pool => if pool.isEmpty then some 0 else none
  | fuel + 1, g, pool =>
    if pool.isEmpty then some 0
    else
      let rolled := rollAll g pool
      match remove_dice rolled (s rolled) with
      | none => none
      | some (p, pool2) =>
        match simRounds s fuel (shiftRng g pool.length) pool2 with
        | none => none
        | some t => some (p + t)

/-- `simulate_game`, given 15 rounds of fuel (the initial pool size — the
spec's guaranteed termination bound). -/
def simulate_game (s : Strategy) (g : Nat → Nat) : Option Nat :=
  simRounds s 15 g gameNewDice

/-- Running the `simulate_game` loop for exactly `n` iterations (or fewer if
the game ends), exposing the in-progress state: used to observe what the
engine does when a strategy makes no progress. -/
def runRounds (s : Strategy) : Nat → (Nat → Nat) → List Die → Nat → Option (List Die × Nat)
  | 0, _, pool, total => some (pool, total)
  | n + 1, g, pool, total =>
    if pool.isEmpty then some (pool, total)
    else
      let rolled := rollAll g pool
      match remove_dice rolled (s rolled) with
      | none => none
      | some (p, pool2) => runRounds s n (shiftRng g pool.length) pool2 (total + p)

/-- The pools handed to the strategy, in order, during `simulate_game`
(the strategy is invoked on `&game.dice` right after `roll_all`). -/
def observedPools (s : Strategy) : Nat → (Nat → Nat) → List Die → List (List Die)
  | 0, _, _ => []
  | fuel + 1, g, pool =>
    if pool.isEmpty then []
    else
      let rolled := rollAll g pool
      rolled ::
        (match remove_dice rolled (s rolled) with
         | none => []
         | some (_, pool2) => observedPools s fuel (shiftRng g pool.length) pool2)

/-- The loop of `run_simulations`: trial index `i`, `k` trials still to run,
accumulator `(total_points, min_points, gravies, max_points)` (initially
`(0, u8::MAX = 255, 0, 0)`).  The per-trial random source is `seeds i`,
modelling `SmallRng::seed_from_u64(i)`. -/
def runSimAux (s : Strategy) (seeds : Nat → Nat → Nat) :
    Nat → Nat → Nat × Nat × Nat × Nat → Option (Nat × Nat × Nat × Nat)
  | _, 0, acc => some acc
  | i, k + 1, (total, mn, gr, mx) =>
    match simulate_game s (seeds i) with
    | none => none
    | some p =>
      runSimAux s seeds (i + 1) k
        (total + p, min mn p, (if p = 0 then gr + 1 else gr), max mx p)

/-- `run_simulations`, returning `(total_points, min_points, gravies,
max_points)`; the reported f64 average is `total_points / n`, taken exactly
in `ℚ` in the statements below. -/
def run_simulations (s : Strategy) (n : Nat) (seeds : Nat → Nat → Nat) :
    Option (Nat × Nat × Nat × Nat) :=
  runSimAux s seeds 0 n (0, 255, 0, 0)

/-- The maximal total points still obtainable from a pool: the sum of
`faces − 1` over its dice. -/
def poolBound (l : List Die) : Nat :=
  (l.map (fun d => d.faces.value - 1)).sum

/-- A strategy is well-behaved on a pool when, on any non-empty pool, it
returns a non-empty, duplicate-free list of in-range indices — the contract
of §4.3 that every registered strategy satisfies. -/
def goodStrategy (s : Strategy) : Prop :=
  ∀ dice : List Die, dice ≠ [] →
    s dice ≠ [] ∧ (s dice).Nodup ∧ ∀ i ∈ s dice, i < dice.length

/-- The weighted score from the spec's sentence for PrioritizeMaxValue with
weight `k = 2` (`faces − k·points`), stated only for comparison with the
source's `prio_min_for`. -/
def specPrioScore2 (d : Die) : Int :=
  (d.faces.value : Int) - 2 * (d.points : Int)

/-- C4: removing positions `{1, 3}` from the 4-die pool with points
`[3, 1, 5, 2]` returns summed points `3` and leaves exactly the dice that
were originally at positions `0` and `2`, in that relative order. -/
theorem claim_C4 :
    remove_dice
        [⟨Faces.six, 3⟩, ⟨Faces.eight, 1⟩, ⟨Faces.ten, 5⟩, ⟨Faces.twelve, 2⟩]
        [1, 3] =
      some (3, [⟨Faces.six, 3⟩, ⟨Faces.ten, 5⟩]) := by
  decide

/-- C2 counterexample: `Game::remove_dice` does not ignore bad indices.  On the
4-die pool with points `[3, 1, 5, 2]`, the out-of-range index `5` makes
`swap_remove` panic (modelled `none`) instead of being ignored, and the
duplicate list `[1, 1]` removes a second die (the 12-sided one swapped into
slot 1, points 2) instead of ignoring the duplicate: it returns points
`1 + 2 = 3` and only two dice remain, where ignoring the duplicate would
return `1` and leave three dice. -/
theorem claim_C2_counterexample :
    remove_dice
        [⟨Faces.six, 3⟩, ⟨Faces.eight, 1⟩, ⟨Faces.ten, 5⟩, ⟨Faces.twelve, 2⟩]
        [5, 1] = none ∧
    remove_dice
        [⟨Faces.six, 3⟩, ⟨Faces.eight, 1⟩, ⟨Faces.ten, 5⟩, ⟨Faces.twelve, 2⟩]
        [1, 1] =
      some (3, [⟨Faces.six, 3⟩, ⟨Faces.ten, 5⟩]) := by
  decide

/-- C3 counterexample: when the strategy returns an empty selection the round
engine does not abort — it silently retries forever.  After 100 rounds with
the always-empty strategy, the loop is still running: the pool still holds all
15 dice (merely re-rolled) and the running total is still 0. -/
theorem claim_C3_counterexample :
    runRounds (fun _ => []) 100 (fun _ => 0) gameNewDice 0 =
      some (rollAll (fun _ => 0) gameNewDice, 0) ∧
    (rollAll (fun _ => 0) gameNewDice).length = 15 := by
  decide

/-- C5 counterexample: the code's score is `faces − 4·points`
(`prio_min_for`), not `faces − 2·points` as the claim states.  On the pool
`[(faces=12, points=3), (faces=6, points=1)]` the strategy selects index 1,
although index 0 has the strictly larger weight-2 score (`12 − 2·3 = 6` vs
`6 − 2·1 = 4`), so the strategy does not maximize the weight-2 score. -/
theorem claim_C5_counterexample :
    all_zero_or_prio_min_strategy [⟨Faces.twelve, 3⟩, ⟨Faces.six, 1⟩] = [1] ∧
    specPrioScore2 ⟨Faces.six, 1⟩ < specPrioScore2 ⟨Faces.twelve, 3⟩ := by
  decide

/-- C5 (amended): with the code's weight 4, on the pool
`[(6,3), (8,1), (10,4), (12,2)]` the scores are `−6, 4, −6, 4`; the tie
between indices 1 and 3 is broken by the larger face count, so index 3 is
selected first, and after that die is removed index 1 is selected
(`prio_min_for` values shown for the two tied dice). -/
theorem claim_C5_amended_thm :
    all_zero_or_prio_min_strategy
        [⟨Faces.six, 3⟩, ⟨Faces.eight, 1⟩, ⟨Faces.ten, 4⟩, ⟨Faces.twelve, 2⟩] = [3] ∧
    all_zero_or_prio_min_strategy
        [⟨Faces.six, 3⟩, ⟨Faces.eight, 1⟩, ⟨Faces.ten, 4⟩] = [1] ∧
    prio_min_for ⟨Faces.twelve, 2⟩ = 4 ∧ prio_min_for ⟨Faces.eight, 1⟩ = 4 := by
  decide

/-- C6 counterexample: on the pool `[(faces=6, points=4)]` there are no
distinguished dice, so the count of zero-point distinguished dice (0) equals
the count of distinguished dice (0) and "no distinguished dice remain" holds;
the claim then demands that exactly the zero-point dice (none) be removed,
but the strategy selects index 0, a die with points 4 ≠ 0 (the big-min
fallback). -/
theorem claim_C6_counterexample :
    all_big_zero_or_one_zero_or_big_min_strategy [⟨Faces.six, 4⟩] = [0] ∧
    find_zero_point_dice [⟨Faces.six, 4⟩] = [] ∧
    bigDiceCount [⟨Faces.six, 4⟩] = 0 := by
  decide

/-- C8 counterexample: `run_simulations` accepts a trial count of 0, and then
reports minimum `u8::MAX = 255` and maximum `0`, so `minimum ≤ average ≤
maximum` fails (in Rust the average is even `0/0 = NaN`). -/
theorem claim_C8_counterexample :
    run_simulations one_min_strategy 0 (fun _ _ => 0) = some (0, 255, 0, 0) ∧
    ¬(255 ≤ (0 : Nat)) := by
  decide

/-! ### Helper lemmas: the descending sort of `Game::remove_dice` -/

theorem insertDesc_perm (x : Nat) (l : List Nat) :
    List.Perm (insertDesc x l) (x :: l) := by
  induction l with
  | nil => simp [insertDesc]
  | cons y ys ih =>
    by_cases h : y ≤ x
    · simp [insertDesc, h]
    · simp only [insertDesc, if_neg h]
      exact List.Perm.trans (List.Perm.cons y ih) (List.Perm.swap x y ys)

theorem sortDesc_perm (l : List Nat) : List.Perm (sortDesc l) l := by
  induction l with
  | nil => simp [sortDesc]
  | cons x xs ih =>
    exact List.Perm.trans (insertDesc_perm x (sortDesc xs)) (List.Perm.cons x ih)

theorem insertDesc_sorted (x : Nat) (l : List Nat) (h : l.Pairwise (· ≥ ·)) :
    (insertDesc x l).Pairwise (· ≥ ·) := by
  induction l with
  | nil => simp [insertDesc]
  | cons y ys ih =>
    rcases List.pairwise_cons.mp h with ⟨hy, hys⟩
    by_cases hxy : y ≤ x
    · simp only [insertDesc, if_pos hxy]
      refine List.pairwise_cons.mpr ⟨?_, h⟩
      intro b hb
      rcases List.mem_cons.mp hb with hb | hb
      · exact hb ▸ hxy
      · exact le_trans (hy b hb) hxy
    · simp only [insertDesc, if_neg hxy]
      refine List.pairwise_cons.mpr ⟨?_, ih hys⟩
      intro b hb
      rcases List.mem_cons.mp ((insertDesc_perm x ys).mem_iff.mp hb) with hb | hb
      · exact hb ▸ le_of_lt (lt_of_not_le hxy)
      · exact hy b hb

theorem sortDesc_sorted (l : List Nat) : (sortDesc l).Pairwise (· ≥ ·) := by
  induction l with
  | nil => simp [sortDesc]
  | cons x xs ih => exact insertDesc_sorted x (sortDesc xs) ih

theorem sortDesc_gt_of_nodup (l : List Nat) (h : l.Nodup) :
    (sortDesc l).Pairwise (· > ·) := by
  have hs := sortDesc_sorted l
  have hn : (sortDesc l).Nodup := (sortDesc_perm l).symm.nodup h
  exact (hs.and hn).imp (fun hab => lt_of_le_of_ne hab.1 (Ne.symm hab.2))

/-! ### Helper lemmas: `Vec::swap_remove` -/

theorem dropLast_cons_ne (a : Die) (l : List Die) (h : l ≠ []) :
    (a :: l).dropLast = a :: l.dropLast := by
  cases l with
  | nil => exact absurd rfl h
  | cons b t => exact List.dropLast_cons₂

theorem set_getLastD_dropLast_perm :
    ∀ (l : List Die) (i : Nat) (h : i < l.length) (d : Die),
    List.Perm (l.get ⟨i, h⟩ :: (l.set i (l.getLastD d)).dropLast) l
  | [], i, h, _ => absurd h (by simp)
  | [a], 0, _, d => by
    simp [List.getLastD_cons, List.getLastD_nil]
  | a :: b :: t, 0, _, d => by
    have hbt : b :: t ≠ [] := by simp
    have hz : (b :: t).getLastD a = (b :: t).getLast hbt := by
      rw [List.getLastD_cons]
      exact (List.getLast_eq_getLastD b t hbt).symm
    have h1 : List.Perm ((b :: t).getLastD a :: (b :: t).dropLast) (b :: t) := by
      rw [hz]
      have h2 :=
        (List.perm_append_singleton ((b :: t).getLast hbt) ((b :: t).dropLast)).symm
      rw [List.dropLast_append_getLast hbt] at h2
      exact h2
    show List.Perm
      (a :: ((a :: b :: t).set 0 ((a :: b :: t).getLastD d)).dropLast) (a :: b :: t)
    rw [List.getLastD_cons, List.set_cons_zero, List.dropLast_cons₂]
    exact h1.cons a
  | a :: b :: t, j + 1, h, d => by
    have hj : j < (b :: t).length := Nat.lt_of_succ_lt_succ (by simpa using h)
    have hset : (b :: t).set j ((b :: t).getLastD a) ≠ [] := by
      intro hnil
      have hlen := List.length_set (b :: t) j ((b :: t).getLastD a)
      rw [hnil] at hlen
      simp at hlen
    have rec1 := set_getLastD_dropLast_perm (b :: t) j hj a
    show List.Perm
      ((b :: t).get ⟨j, hj⟩ ::
        ((a :: b :: t).set (j + 1) ((a :: b :: t).getLastD d)).dropLast)
      (a :: b :: t)
    rw [List.getLastD_cons, List.set_cons_succ, dropLast_cons_ne a _ hset]
    exact List.Perm.trans (List.Perm.swap a _ _) (rec1.cons a)

theorem set_getLastD_dropLast_getD :
    ∀ (l : List Die) (i j : Nat), i < l.length → j < i → ∀ (d e : Die),
    ((l.set i (l.getLastD d)).dropLast).getD j e = l.getD j e
  | [], i, j, h, _, _, _ => absurd h (by simp)
  | a :: rest, 0, j, _, hj, _, _ => absurd hj (by simp)
  | a :: rest, k + 1, 0, h, _, d, e => by
    have hk : k < rest.length := by simpa using Nat.lt_of_succ_lt_succ h
    have hrest : rest ≠ [] := by
      intro hnil
      rw [hnil] at hk
      simp at hk
    have hset : rest.set k (rest.getLastD a) ≠ [] := by
      have hlen : (rest.set k (rest.getLastD a)).length = rest.length :=
        List.length_set _ _ _
      intro hnil
      rw [hnil] at hlen
      exact hrest (List.length_eq_zero.mp hlen.symm)
    rw [List.getLastD_cons, List.set_cons_succ, dropLast_cons_ne a _ hset]
    simp [List.getD_cons_zero]
  | a :: rest, k + 1, j + 1, h, hj, d, e => by
    have hk : k < rest.length := by simpa using Nat.lt_of_succ_lt_succ h
    have hjk : j < k := Nat.lt_of_succ_lt_succ hj
    have hset : rest.set k (rest.getLastD a) ≠ [] := by
      have hlen : (rest.set k (rest.getLastD a)).length = rest.length :=
        List.length_set _ _ _
      intro hnil
      rw [hnil] at hlen
      have : rest.length = 0 := hlen.symm
      rw [this] at hk
      simp at hk
    rw [List.getLastD_cons, List.set_cons_succ, dropLast_cons_ne a _ hset,
      List.getD_cons_succ, List.getD_cons_succ]
    exact set_getLastD_dropLast_getD rest k j hk hjk a e

theorem swapRemove_some (l : List Die) (i : Nat) (h : i < l.length) :
    swapRemove l i = some (l.get ⟨i, h⟩, (l.set i (l.getLastD Die.six)).dropLast) := by
  simp [swapRemove, h]

theorem swapRemove_length (l : List Die) (i : Nat) :
    ((l.set i (l.getLastD Die.six)).dropLast).length = l.length - 1 := by
  rw [List.length_dropLast, List.length_set]

/-! ### Helper lemmas: `Game::remove_dice` on well-formed index lists -/

theorem removeDiceAux_spec :
    ∀ (idx : List Nat) (l : List Die),
    idx.Pairwise (· > ·) → (∀ i ∈ idx, i < l.length) →
    ∃ l2, removeDiceAux idx l =
        some ((((idx.map fun i => l.getD i Die.six).map Die.points).sum, l2)) ∧
      l2.length = l.length - idx.length ∧
      (l2 : Multiset Die) + ↑(idx.map fun i => l.getD i Die.six) = ↑l := by
  intro idx
  induction idx with
  | nil =>
    intro l _ _
    exact ⟨l, rfl, by simp, by simp⟩
  | cons i rest ih =>
    intro l hpw hbd
    have hi : i < l.length := hbd i (List.mem_cons_self i rest)
    rcases List.pairwise_cons.mp hpw with ⟨hgt, hpw2⟩
    have hswap := swapRemove_some l i hi
    have hlen1 := swapRemove_length l i
    have hbd2 : ∀ j ∈ rest, j < ((l.set i (l.getLastD Die.six)).dropLast).length := by
      intro j hj
      rw [hlen1]
      have h1 : j < i := hgt j hj
      omega
    rcases ih ((l.set i (l.getLastD Die.six)).dropLast) hpw2 hbd2 with
      ⟨l2, hrun, hlen2, hmul⟩
    have hmap :
        (rest.map fun j => ((l.set i (l.getLastD Die.six)).dropLast).getD j Die.six) =
          rest.map fun j => l.getD j Die.six := by
      refine List.map_congr_left ?_
      intro j hj
      exact set_getLastD_dropLast_getD l i j hi (hgt j hj) Die.six Die.six
    rw [hmap] at hrun hmul
    have hget : l.getD i Die.six = l.get ⟨i, hi⟩ := by
      rw [List.getD_eq_getElem l Die.six hi]
      simp [List.get_eq_getElem]
    refine ⟨l2, ?_, ?_, ?_⟩
    · show removeDiceAux (i :: rest) l = _
      simp only [removeDiceAux, hswap, hrun]
      simp [hget, List.getElem?_eq_getElem hi]
    · rw [hlen2, hlen1]
      simp only [List.length_cons]
      omega
    · have hperm := set_getLastD_dropLast_perm l i hi Die.six
      have hcoe : (↑(l.get ⟨i, hi⟩ :: (l.set i (l.getLastD Die.six)).dropLast) :
          Multiset Die) = ↑l := Multiset.coe_eq_coe.mpr hperm
      rw [← Multiset.cons_coe] at hcoe
      simp only [List.map_cons, ← Multiset.cons_coe, hget]
      rw [← hcoe, ← hmul]
      rw [Multiset.add_cons]

theorem remove_dice_spec (l : List Die) (idx : List Nat) (h1 : idx.Nodup)
    (h2 : ∀ i ∈ idx, i < l.length) :
    ∃ l2, remove_dice l idx =
        some (((idx.map fun i => l.getD i Die.six).map Die.points).sum, l2) ∧
      l2.length = l.length - idx.length ∧
      (l2 : Multiset Die) + ↑(idx.map fun i => l.getD i Die.six) = ↑l := by
  have hperm := sortDesc_perm idx
  have hpw := sortDesc_gt_of_nodup idx h1
  have hbd : ∀ i ∈ sortDesc idx, i < l.length := fun i hi => h2 i (hperm.mem_iff.mp hi)
  rcases removeDiceAux_spec (sortDesc idx) l hpw hbd with ⟨l2, hrun, hlen, hmul⟩
  have hmp : List.Perm ((sortDesc idx).map fun i => l.getD i Die.six)
      (idx.map fun i => l.getD i Die.six) := hperm.map _
  refine ⟨l2, ?_, ?_, ?_⟩
  · rw [remove_dice, hrun, (hmp.map Die.points).sum_eq]
  · rw [hlen, hperm.length_eq]
  · rw [← Multiset.coe_eq_coe.mpr hmp]
    exact hmul

/-! ### Helper lemmas: rolling -/

theorem faces_value_pos (f : Faces) : 0 < f.value := by
  cases f <;> simp [Faces.value]

theorem rollAll_length (g : Nat → Nat) (l : List Die) :
    (rollAll g l).length = l.length := by
  induction l generalizing g with
  | nil => rfl
  | cons a rest ih => simp [rollAll, ih]

theorem rollAll_points_lt (g : Nat → Nat) (l : List Die) :
    ∀ d ∈ rollAll g l, d.points < d.faces.value := by
  induction l generalizing g with
  | nil => simp [rollAll]
  | cons a rest ih =>
    intro d hd
    rcases List.mem_cons.mp hd with hd | hd
    · subst hd
      exact Nat.mod_lt _ (faces_value_pos a.faces)
    · exact ih _ d hd

theorem rollAll_poolBound (g : Nat → Nat) (l : List Die) :
    poolBound (rollAll g l) = poolBound l := by
  induction l generalizing g with
  | nil => rfl
  | cons a rest ih => simp [rollAll, poolBound, Die.rollWith] at ih ⊢; simp [ih]

/-! ### Helper lemmas: the score bound -/

theorem poolBound_split (a b c : List Die) (h : (a : Multiset Die) + ↑b = ↑c) :
    poolBound a + poolBound b = poolBound c := by
  have h2 := congrArg (fun m : Multiset Die => (m.map fun d => d.faces.value - 1).sum) h
  simpa [Multiset.map_coe, Multiset.sum_coe, Multiset.map_add, Multiset.sum_add,
    poolBound] using h2

theorem removed_points_le (rolled removed : List Die)
    (hmem : ∀ d ∈ removed, d ∈ rolled)
    (hlt : ∀ d ∈ rolled, d.points < d.faces.value) :
    (removed.map Die.points).sum ≤ poolBound removed := by
  unfold poolBound
  apply List.sum_le_sum
  intro d hd
  have := hlt d (hmem d hd)
  omega

theorem simRounds_complete (s : Strategy) (hs : goodStrategy s) :
    ∀ (fuel : Nat) (pool : List Die) (g : Nat → Nat), pool.length ≤ fuel →
    ∃ sc, simRounds s fuel g pool = some sc ∧ sc ≤ poolBound pool := by
  intro fuel
  induction fuel with
  | zero =>
    intro pool g hlen
    have hnil : pool = [] := List.length_eq_zero.mp (Nat.le_zero.mp hlen)
    subst hnil
    exact ⟨0, by simp [simRounds], by simp⟩
  | succ fuel ih =>
    intro pool g hlen
    by_cases hemp : pool = []
    · subst hemp
      exact ⟨0, by simp [simRounds], by simp⟩
    · have hrlen : (rollAll g pool).length = pool.length := rollAll_length g pool
      have hrne : rollAll g pool ≠ [] := by
        intro h0
        rw [h0] at hrlen
        exact hemp (List.length_eq_zero.mp hrlen.symm)
      rcases hs (rollAll g pool) hrne with ⟨hne, hnd, hbd⟩
      rcases remove_dice_spec (rollAll g pool) (s (rollAll g pool)) hnd hbd with
        ⟨pool2, hrun, hlen2, hmul⟩
      have hkpos : 0 < (s (rollAll g pool)).length := List.length_pos.mpr hne
      have hp2 : pool2.length ≤ fuel := by
        rw [hlen2, hrlen]
        have := List.length_pos.mpr hemp
        omega
      rcases ih pool2 (shiftRng g pool.length) hp2 with ⟨sc2, hrun2, hsc2⟩
      refine ⟨(((s (rollAll g pool)).map fun i =>
          (rollAll g pool).getD i Die.six).map Die.points).sum + sc2, ?_, ?_⟩
      · rw [simRounds]
        simp only [List.isEmpty_iff, hemp, if_false, hrun, hrun2]
      · have hmem : ∀ d ∈ (s (rollAll g pool)).map fun i =>
            (rollAll g pool).getD i Die.six, d ∈ rollAll g pool := by
          intro d hd
          have h1 : d ∈ ((pool2 : Multiset Die) +
              ↑((s (rollAll g pool)).map fun i => (rollAll g pool).getD i Die.six)) := by
            rw [Multiset.mem_add]
            exact Or.inr (Multiset.mem_coe.mpr hd)
          rw [hmul] at h1
          exact Multiset.mem_coe.mp h1
        have h1 := removed_points_le (rollAll g pool)
          ((s (rollAll g pool)).map fun i => (rollAll g pool).getD i Die.six)
          hmem (rollAll_points_lt g pool)
        have h2 := poolBound_split pool2
          ((s (rollAll g pool)).map fun i => (rollAll g pool).getD i Die.six)
          (rollAll g pool) hmul
        have h3 := rollAll_poolBound g pool
        omega

/-! ### Helper lemmas: index-returning helpers are well-formed -/

theorem filterIdxFrom_bounds (p : Die → Bool) :
    ∀ (l : List Die) (i j : Nat), j ∈ filterIdxFrom p i l → i ≤ j ∧ j < i + l.length := by
  intro l
  induction l with
  | nil =>
    intro i j hj
    simp [filterIdxFrom] at hj
  | cons d rest ih =>
    intro i j hj
    simp only [filterIdxFrom] at hj
    by_cases hp : p d = true
    · rw [if_pos hp] at hj
      rcases List.mem_cons.mp hj with hj | hj
      · subst hj
        simp only [List.length_cons]
        omega
      · have := ih (i + 1) j hj
        simp only [List.length_cons]
        omega
    · rw [if_neg hp] at hj
      have := ih (i + 1) j hj
      simp only [List.length_cons]
      omega

theorem filterIdxFrom_pairwise (p : Die → Bool) :
    ∀ (l : List Die) (i : Nat), (filterIdxFrom p i l).Pairwise (· < ·) := by
  intro l
  induction l with
  | nil => intro i; simp [filterIdxFrom]
  | cons d rest ih =>
    intro i
    simp only [filterIdxFrom]
    by_cases hp : p d = true
    · rw [if_pos hp]
      refine List.pairwise_cons.mpr ⟨?_, ih (i + 1)⟩
      intro j hj
      have := (filterIdxFrom_bounds p rest (i + 1) j hj).1
      omega
    · rw [if_neg hp]
      exact ih (i + 1)

theorem filterIdxFrom_nodup (p : Die → Bool) (l : List Die) (i : Nat) :
    (filterIdxFrom p i l).Nodup :=
  (filterIdxFrom_pairwise p l i).imp (fun h => Nat.ne_of_lt h)

theorem filterIdxFrom_ne_nil (p : Die → Bool) :
    ∀ (l : List Die) (i : Nat), filterIdxFrom p i l ≠ [] ↔ ∃ d ∈ l, p d = true := by
  intro l
  induction l with
  | nil => intro i; simp [filterIdxFrom]
  | cons d rest ih =>
    intro i
    simp only [filterIdxFrom]
    by_cases hp : p d = true
    · rw [if_pos hp]
      constructor
      · intro _
        exact ⟨d, List.mem_cons_self d rest, hp⟩
      · intro _
        simp
    · rw [if_neg hp]
      rw [ih (i + 1)]
      constructor
      · rintro ⟨e, he, hpe⟩
        exact ⟨e, List.mem_cons_of_mem d he, hpe⟩
      · rintro ⟨e, he, hpe⟩
        rcases List.mem_cons.mp he with he | he
        · subst he
          exact absurd hpe hp
        · exact ⟨e, he, hpe⟩

theorem headD_mem_of_ne_nil (l : List Nat) (h : l ≠ []) : l.headD 0 ∈ l := by
  cases l with
  | nil => exact absurd rfl h
  | cons a t => simp

theorem find_zero_bound (dice : List Die) (i : Nat)
    (h : i ∈ find_zero_point_dice dice) : i < dice.length := by
  have hb := (filterIdxFrom_bounds _ dice 0 i h).2
  omega

theorem find_zero_nodup (dice : List Die) : (find_zero_point_dice dice).Nodup :=
  filterIdxFrom_nodup _ dice 0

theorem find_big_zero_bound (dice : List Die) (i : Nat)
    (h : i ∈ find_big_zero_dice dice) : i < dice.length := by
  have hb := (filterIdxFrom_bounds _ dice 0 i h).2
  omega

theorem find_big_zero_nodup (dice : List Die) : (find_big_zero_dice dice).Nodup :=
  filterIdxFrom_nodup _ dice 0

theorem find_zero_ne_nil_of_big_zero (dice : List Die)
    (h : find_big_zero_dice dice ≠ []) : find_zero_point_dice dice ≠ [] := by
  rcases (filterIdxFrom_ne_nil _ dice 0).mp h with ⟨d, hd, hpd⟩
  have hz : (fun e : Die => e.points == 0) d = true := by
    simp only [Bool.and_eq_true] at hpd
    exact hpd.1
  exact (filterIdxFrom_ne_nil _ dice 0).mpr ⟨d, hd, hz⟩

theorem find_big_zero_nil_of_no_big (dice : List Die)
    (h : bigDiceCount dice = 0) : find_big_zero_dice dice = [] := by
  by_contra h0
  rcases (filterIdxFrom_ne_nil _ dice 0).mp h0 with ⟨d, hd, hpd⟩
  simp only [Bool.and_eq_true] at hpd
  unfold bigDiceCount at h
  rw [List.length_eq_zero, List.filter_eq_nil_iff] at h
  exact (h d hd) hpd.2

theorem findMinAux_lt :
    ∀ (l : List Die) (i bp bi n : Nat), bi < n → i + l.length ≤ n →
    findMinAux l i bp bi < n := by
  intro l
  induction l with
  | nil =>
    intro i bp bi n h1 _
    simpa [findMinAux] using h1
  | cons d rest ih =>
    intro i bp bi n h1 h2
    simp only [List.length_cons] at h2
    simp only [findMinAux]
    by_cases hp : d.points < bp
    · rw [if_pos hp]
      exact ih (i + 1) d.points i n (by omega) (by omega)
    · rw [if_neg hp]
      exact ih (i + 1) bp bi n h1 (by omega)

theorem find_min_points_die_lt (dice : List Die) (h : dice ≠ []) :
    find_min_points_die dice < dice.length := by
  have hpos : 0 < dice.length := List.length_pos.mpr h
  exact findMinAux_lt dice 0 255 0 dice.length hpos (by omega)

theorem bigMinAux_lt :
    ∀ (l : List Die) (i : Nat) (acc : Nat × Die) (n : Nat),
    acc.1 < n → i + l.length ≤ n → bigMinAux l i acc < n := by
  intro l
  induction l with
  | nil =>
    intro i acc n h1 _
    simpa [bigMinAux] using h1
  | cons d rest ih =>
    intro i acc n h1 h2
    simp only [List.length_cons] at h2
    simp only [bigMinAux]
    by_cases hp : dieLt d acc.2 = true
    · rw [if_pos hp]
      exact ih (i + 1) (i, d) n (by simp; omega) (by omega)
    · rw [if_neg hp]
      exact ih (i + 1) acc n h1 (by omega)

theorem find_big_min_die_lt (dice : List Die) (h : dice ≠ []) :
    find_big_min_die dice < dice.length := by
  cases dice with
  | nil => exact absurd rfl h
  | cons d rest =>
    show bigMinAux rest 1 (0, d) < (d :: rest).length
    simp only [List.length_cons]
    exact bigMinAux_lt rest 1 (0, d) (rest.length + 1) (by simp) (by omega)

theorem prioAux_lt :
    ∀ (l : List Die) (i : Nat) (acc : Nat × Faces × Int) (n : Nat),
    acc.1 < n → i + l.length ≤ n → prioAux l i acc < n := by
  intro l
  induction l with
  | nil =>
    intro i acc n h1 _
    simpa [prioAux] using h1
  | cons d rest ih =>
    intro i acc n h1 h2
    simp only [List.length_cons] at h2
    obtain ⟨bi, bm, bs⟩ := acc
    simp only [prioAux]
    by_cases hp : bs < prio_min_for d ∨ (prio_min_for d = bs ∧ bm.value < d.faces.value)
    · rw [if_pos hp]
      exact ih (i + 1) (i, d.faces, prio_min_for d) n (by simp; omega) (by omega)
    · rw [if_neg hp]
      exact ih (i + 1) (bi, bm, bs) n (by simpa using h1) (by omega)

/-! ### The five registered strategies obey the §4.3 contract -/

theorem good_one_min : goodStrategy one_min_strategy := by
  intro dice hne
  refine ⟨by simp [one_min_strategy], by simp [one_min_strategy], ?_⟩
  intro i hi
  simp only [one_min_strategy, List.mem_singleton] at hi
  subst hi
  exact find_min_points_die_lt dice hne

theorem good_all_zero_or_one_min : goodStrategy all_zero_or_one_min_strategy := by
  intro dice hne
  simp only [all_zero_or_one_min_strategy]
  by_cases hz : (find_zero_point_dice dice).isEmpty
  · rw [if_pos hz]
    refine ⟨by simp, by simp, ?_⟩
    intro i hi
    simp only [List.mem_singleton] at hi
    subst hi
    exact find_min_points_die_lt dice hne
  · rw [if_neg hz]
    have hznil : find_zero_point_dice dice ≠ [] := by
      intro h0
      rw [h0] at hz
      simp at hz
    exact ⟨hznil, find_zero_nodup dice, fun i hi => find_zero_bound dice i hi⟩

theorem good_all_zero_or_prio_min : goodStrategy all_zero_or_prio_min_strategy := by
  intro dice hne
  simp only [all_zero_or_prio_min_strategy]
  by_cases hz : (find_zero_point_dice dice).isEmpty
  · rw [if_pos hz]
    refine ⟨by simp, by simp, ?_⟩
    intro i hi
    simp only [List.mem_singleton] at hi
    subst hi
    have hpos : 0 < dice.length := List.length_pos.mpr hne
    exact prioAux_lt dice 0 (0, Faces.six, -128) dice.length (by simp; omega) (by omega)
  · rw [if_neg hz]
    have hznil : find_zero_point_dice dice ≠ [] := by
      intro h0
      rw [h0] at hz
      simp at hz
    exact ⟨hznil, find_zero_nodup dice, fun i hi => find_zero_bound dice i hi⟩

theorem good_all_zero_or_big_min : goodStrategy all_zero_or_big_min_strategy := by
  intro dice hne
  simp only [all_zero_or_big_min_strategy]
  by_cases hz : (find_zero_point_dice dice).isEmpty
  · rw [if_pos hz]
    refine ⟨by simp, by simp, ?_⟩
    intro i hi
    simp only [List.mem_singleton] at hi
    subst hi
    exact find_big_min_die_lt dice hne
  · rw [if_neg hz]
    have hznil : find_zero_point_dice dice ≠ [] := by
      intro h0
      rw [h0] at hz
      simp at hz
    exact ⟨hznil, find_zero_nodup dice, fun i hi => find_zero_bound dice i hi⟩

theorem good_all_big_zero : goodStrategy all_big_zero_or_one_zero_or_big_min_strategy := by
  intro dice hne
  simp only [all_big_zero_or_one_zero_or_big_min_strategy]
  by_cases hbz : (find_big_zero_dice dice).isEmpty
  · rw [hbz]
    simp only [Bool.not_true, Bool.false_eq_true, if_false]
    by_cases haz : (find_zero_point_dice dice).isEmpty
    · rw [haz]
      simp only [Bool.not_true, Bool.false_eq_true, if_false]
      refine ⟨by simp, by simp, ?_⟩
      intro i hi
      simp only [List.mem_singleton] at hi
      subst hi
      exact find_big_min_die_lt dice hne
    · have haz2 : (find_zero_point_dice dice).isEmpty = false := by
        cases h0 : (find_zero_point_dice dice).isEmpty
        · rfl
        · exact absurd h0 haz
      rw [haz2]
      simp only [Bool.not_false, if_true]
      have hznil : find_zero_point_dice dice ≠ [] := by
        intro h0
        rw [h0] at haz2
        simp at haz2
      by_cases hc : bigDiceCount dice = 0
      · rw [if_pos hc]
        exact ⟨hznil, find_zero_nodup dice, fun i hi => find_zero_bound dice i hi⟩
      · rw [if_neg hc]
        refine ⟨by simp, by simp, ?_⟩
        intro i hi
        simp only [List.mem_singleton] at hi
        subst hi
        exact find_zero_bound dice _ (headD_mem_of_ne_nil _ hznil)
  · have hbz2 : (find_big_zero_dice dice).isEmpty = false := by
      cases h0 : (find_big_zero_dice dice).isEmpty
      · rfl
      · exact absurd h0 hbz
    rw [hbz2]
    simp only [Bool.not_false, if_true]
    have hbznil : find_big_zero_dice dice ≠ [] := by
      intro h0
      rw [h0] at hbz2
      simp at hbz2
    by_cases hc : bigDiceCount dice = (find_big_zero_dice dice).length
    · rw [if_pos hc]
      exact ⟨find_zero_ne_nil_of_big_zero dice hbznil, find_zero_nodup dice,
        fun i hi => find_zero_bound dice i hi⟩
    · rw [if_neg hc]
      exact ⟨hbznil, find_big_zero_nodup dice, fun i hi => find_big_zero_bound dice i hi⟩

/-- C1: for every registered strategy and every random stream (seed), the
simulated game terminates within the initial pool size (15) rounds:
`simulate_game`, whose loop is given exactly 15 rounds of fuel, completes
with a score.  Each round the strategy returns a non-empty selection of
distinct in-range indices, so the pool strictly shrinks until it is empty. -/
theorem claim_C1 :
    ∀ p ∈ strategies, ∀ g : Nat → Nat, ∃ sc, simulate_game p.2 g = some sc := by
  intro p hp g
  have hgood : goodStrategy p.2 := by
    simp only [strategies, List.mem_cons, List.not_mem_nil, or_false] at hp
    rcases hp with h | h | h | h | h
    · rw [h]; exact good_one_min
    · rw [h]; exact good_all_zero_or_one_min
    · rw [h]; exact good_all_zero_or_prio_min
    · rw [h]; exact good_all_zero_or_big_min
    · rw [h]; exact good_all_big_zero
  rcases simRounds_complete p.2 hgood 15 gameNewDice g (by decide) with ⟨sc, hsc, _⟩
  exact ⟨sc, hsc⟩

/-- Witness for C1 at a concrete strategy and stream. -/
theorem claim_C1_witness :
    ∃ sc, simulate_game one_min_strategy (fun _ => 0) = some sc :=
  claim_C1 ("One Min", one_min_strategy) (by simp [strategies]) (fun _ => 0)

/-- C7: for every registered strategy and every random stream (seed), the
final score exists and satisfies `0 ≤ score ≤ 87`, where
`87 = 12·(6−1) + 7 + 9 + 11` is the sum of `faces − 1` over the default
15-die composition (`poolBound gameNewDice = 87`).  The score is a `Nat`
(hence `≥ 0`) and stays below `u8::MAX`, so the running `u8` total in the
source never overflows. -/
theorem claim_C7 :
    ∀ p ∈ strategies, ∀ g : Nat → Nat,
    ∃ sc, simulate_game p.2 g = some sc ∧ sc ≤ 87 := by
  intro p hp g
  have hgood : goodStrategy p.2 := by
    simp only [strategies, List.mem_cons, List.not_mem_nil, or_false] at hp
    rcases hp with h | h | h | h | h
    · rw [h]; exact good_one_min
    · rw [h]; exact good_all_zero_or_one_min
    · rw [h]; exact good_all_zero_or_prio_min
    · rw [h]; exact good_all_zero_or_big_min
    · rw [h]; exact good_all_big_zero
  rcases simRounds_complete p.2 hgood 15 gameNewDice g (by decide) with ⟨sc, hsc, hb⟩
  refine ⟨sc, hsc, ?_⟩
  have h87 : poolBound gameNewDice = 87 := by decide
  omega

/-- Witness for C7 at a concrete strategy and stream. -/
theorem claim_C7_witness :
    ∃ sc, simulate_game all_zero_or_big_min_strategy (fun n => n) = some sc ∧ sc ≤ 87 :=
  claim_C7 ("All Zero/Big Min", all_zero_or_big_min_strategy) (by simp [strategies])
    (fun n => n)

/-- C2 (amended): `Game::remove_dice` does not filter bad indices (an
out-of-range index panics and a duplicate removes an extra die — see the
counterexample); what holds is: for every list of *distinct, in-range*
indices — which is all the program's strategies ever supply — it removes
exactly the dice at those positions, returning the sum of their points, the
pool shrinks by exactly the number of indices, and the remaining pool plus
the removed dice is the original pool (as a multiset). -/
theorem claim_C2_amended_thm :
    ∀ (pool : List Die) (idx : List Nat), idx.Nodup → (∀ i ∈ idx, i < pool.length) →
    ∃ pool2, remove_dice pool idx =
        some (((idx.map fun i => pool.getD i Die.six).map Die.points).sum, pool2) ∧
      pool2.length = pool.length - idx.length ∧
      (pool2 : Multiset Die) + ↑(idx.map fun i => pool.getD i Die.six) = ↑pool :=
  fun pool idx h1 h2 => remove_dice_spec pool idx h1 h2

/-- Witness for the amended C2 at a concrete pool and index list. -/
theorem claim_C2_witness :
    ∃ pool2,
      remove_dice [⟨Faces.six, 3⟩, ⟨Faces.eight, 1⟩] [0] =
        some ((([0].map fun i =>
            ([⟨Faces.six, 3⟩, ⟨Faces.eight, 1⟩] : List Die).getD i Die.six).map
          Die.points).sum, pool2) ∧
      pool2.length =
        ([⟨Faces.six, 3⟩, ⟨Faces.eight, 1⟩] : List Die).length - ([0] : List Nat).length ∧
      (pool2 : Multiset Die) + ↑([0].map fun i =>
          ([⟨Faces.six, 3⟩, ⟨Faces.eight, 1⟩] : List Die).getD i Die.six) =
        ↑([⟨Faces.six, 3⟩, ⟨Faces.eight, 1⟩] : List Die) :=
  claim_C2_amended_thm [⟨Faces.six, 3⟩, ⟨Faces.eight, 1⟩] [0] (by decide) (by decide)

/-! ### Helper lemmas: the empty-selection strategy never makes progress -/

theorem emptyStrat_runRounds :
    ∀ (n : Nat) (g : Nat → Nat) (pool : List Die) (total : Nat), pool ≠ [] →
    ∃ pool2, runRounds (fun _ => []) n g pool total = some (pool2, total) ∧
      pool2.length = pool.length ∧ pool2 ≠ [] := by
  intro n
  induction n with
  | zero =>
    intro g pool total h
    exact ⟨pool, rfl, rfl, h⟩
  | succ n ih =>
    intro g pool total h
    have hrem : remove_dice (rollAll g pool) [] = some (0, rollAll g pool) := rfl
    have hrlen := rollAll_length g pool
    have hrne : rollAll g pool ≠ [] := by
      intro h0
      rw [h0] at hrlen
      exact h (List.length_eq_zero.mp hrlen.symm)
    rcases ih (shiftRng g pool.length) (rollAll g pool) (total + 0) hrne with
      ⟨pool2, hrun, hlen, hne2⟩
    refine ⟨pool2, ?_, ?_, hne2⟩
    · rw [runRounds]
      simp only [List.isEmpty_iff, h, if_false, hrem]
      simpa using hrun
    · rw [hlen, hrlen]

theorem emptyStrat_simRounds :
    ∀ (fuel : Nat) (g : Nat → Nat) (pool : List Die), pool ≠ [] →
    simRounds (fun _ => []) fuel g pool = none := by
  intro fuel
  induction fuel with
  | zero =>
    intro g pool h
    simp [simRounds, h]
  | succ fuel ih =>
    intro g pool h
    have hrem : remove_dice (rollAll g pool) [] = some (0, rollAll g pool) := rfl
    have hrlen := rollAll_length g pool
    have hrne : rollAll g pool ≠ [] := by
      intro h0
      rw [h0] at hrlen
      exact h (List.length_eq_zero.mp hrlen.symm)
    rw [simRounds]
    simp only [List.isEmpty_iff, h, if_false, hrem,
      ih (shiftRng g pool.length) (rollAll g pool) hrne]

/-- C3 (amended): the round engine contains no abort/error path for an empty
selection.  If the strategy returns an empty selection, `remove_dice` removes
nothing and returns 0 points, and the `while` loop silently retries forever:
after any number of rounds the game is still in progress with all 15 dice and
total 0, and no amount of fuel completes the game (the source loops
infinitely instead of surfacing an error). -/
theorem claim_C3_amended_thm :
    ∀ (n : Nat) (g : Nat → Nat),
    (∃ pool, runRounds (fun _ => []) n g gameNewDice 0 = some (pool, 0) ∧
      pool.length = 15) ∧
    simRounds (fun _ => []) n g gameNewDice = none := by
  intro n g
  constructor
  · rcases emptyStrat_runRounds n g gameNewDice 0 (by decide) with ⟨pool2, hrun, hlen, _⟩
    refine ⟨pool2, hrun, ?_⟩
    rw [hlen]
    decide
  · exact emptyStrat_simRounds n g gameNewDice (by decide)

/-- C6 (amended): the BigZeroOrMin strategy obeys the spec's edge rules
whenever at least one zero-point die exists; without any zero-point die the
big-min fallback fires instead (see the counterexample).  Precisely:
(a) when zero-point distinguished dice exist and their count equals the count
of distinguished dice remaining, the selection is all zero-point dice of any
face count; (b) when no distinguished zero-point dice exist but ordinary
zero-point dice do and distinguished dice remain, only the first zero-point
die is selected; (c) when no distinguished dice remain and zero-point dice
exist, all zero-point dice are selected. -/
theorem claim_C6_amended_thm :
    ∀ dice : List Die,
    (find_big_zero_dice dice ≠ [] →
      bigDiceCount dice = (find_big_zero_dice dice).length →
      all_big_zero_or_one_zero_or_big_min_strategy dice = find_zero_point_dice dice) ∧
    (find_big_zero_dice dice = [] → find_zero_point_dice dice ≠ [] →
      bigDiceCount dice ≠ 0 →
      all_big_zero_or_one_zero_or_big_min_strategy dice =
        [(find_zero_point_dice dice).headD 0]) ∧
    (bigDiceCount dice = 0 → find_zero_point_dice dice ≠ [] →
      all_big_zero_or_one_zero_or_big_min_strategy dice = find_zero_point_dice dice) := by
  intro dice
  refine ⟨?_, ?_, ?_⟩
  · intro h1 h2
    simp [all_big_zero_or_one_zero_or_big_min_strategy, h1, h2]
  · intro h1 h2 h3
    simp [all_big_zero_or_one_zero_or_big_min_strategy, h1, h2, h3]
  · intro h1 h2
    have h0 : find_big_zero_dice dice = [] := find_big_zero_nil_of_no_big dice h1
    simp [all_big_zero_or_one_zero_or_big_min_strategy, h0, h1, h2]

/-- Witness for the amended C6: each of the three rules applied at a concrete
pool — (a) on `[(8,0),(6,1)]`, (b) on `[(6,1),(6,0),(6,0),(8,2)]`,
(c) on `[(6,0),(6,3),(6,0)]`. -/
theorem claim_C6_witness :
    all_big_zero_or_one_zero_or_big_min_strategy [⟨Faces.eight, 0⟩, ⟨Faces.six, 1⟩] =
      find_zero_point_dice [⟨Faces.eight, 0⟩, ⟨Faces.six, 1⟩] ∧
    all_big_zero_or_one_zero_or_big_min_strategy
        [⟨Faces.six, 1⟩, ⟨Faces.six, 0⟩, ⟨Faces.six, 0⟩, ⟨Faces.eight, 2⟩] =
      [(find_zero_point_dice
        [⟨Faces.six, 1⟩, ⟨Faces.six, 0⟩, ⟨Faces.six, 0⟩, ⟨Faces.eight, 2⟩]).headD 0] ∧
    all_big_zero_or_one_zero_or_big_min_strategy
        [⟨Faces.six, 0⟩, ⟨Faces.six, 3⟩, ⟨Faces.six, 0⟩] =
      find_zero_point_dice [⟨Faces.six, 0⟩, ⟨Faces.six, 3⟩, ⟨Faces.six, 0⟩] :=
  ⟨(claim_C6_amended_thm [⟨Faces.eight, 0⟩, ⟨Faces.six, 1⟩]).1 (by decide) (by decide),
   (claim_C6_amended_thm
     [⟨Faces.six, 1⟩, ⟨Faces.six, 0⟩, ⟨Faces.six, 0⟩, ⟨Faces.eight, 2⟩]).2.1
     (by decide) (by decide) (by decide),
   (claim_C6_amended_thm [⟨Faces.six, 0⟩, ⟨Faces.six, 3⟩, ⟨Faces.six, 0⟩]).2.2
     (by decide) (by decide)⟩

/-! ### Helper lemmas: characterizing `find_min_points_die` -/

theorem getD_mem_of_lt (l : List Die) (k : Nat) (h : k < l.length) :
    l.getD k Die.six ∈ l := by
  rw [List.getD_eq_getElem l Die.six h]
  exact List.getElem_mem h

theorem findMinAux_const :
    ∀ (l : List Die) (i bp bi : Nat), (∀ d ∈ l, bp ≤ d.points) →
    findMinAux l i bp bi = bi := by
  intro l
  induction l with
  | nil => intro i bp bi _; rfl
  | cons d rest ih =>
    intro i bp bi h
    simp only [findMinAux]
    rw [if_neg (by have := h d (List.mem_cons_self d rest); omega)]
    exact ih (i + 1) bp bi (fun e he => h e (List.mem_cons_of_mem d he))

theorem findMinAux_found :
    ∀ (l : List Die) (i bp bi : Nat), (∃ d ∈ l, d.points < bp) →
    ∃ j, j < l.length ∧ findMinAux l i bp bi = i + j ∧
      (l.getD j Die.six).points < bp ∧
      (∀ k, k < l.length → (l.getD j Die.six).points ≤ (l.getD k Die.six).points) ∧
      (∀ k, k < j → (l.getD j Die.six).points < (l.getD k Die.six).points) := by
  intro l
  induction l with
  | nil =>
    intro i bp bi hex
    simp at hex
  | cons d rest ih =>
    intro i bp bi hex
    by_cases hp : d.points < bp
    · by_cases hall : ∀ e ∈ rest, d.points ≤ e.points
      · refine ⟨0, by simp, ?_, by simpa using hp, ?_, ?_⟩
        · simp only [findMinAux, if_pos hp]
          rw [findMinAux_const rest (i + 1) d.points i hall]
          omega
        · intro k hk
          cases k with
          | zero => simp
          | succ m =>
            have hm : m < rest.length := by
              simpa using Nat.lt_of_succ_lt_succ hk
            simp only [List.getD_cons_zero, List.getD_cons_succ]
            exact hall (rest.getD m Die.six) (getD_mem_of_lt rest m hm)
        · intro k hk
          exact absurd hk (Nat.not_lt_zero k)
      · push_neg at hall
        rcases hall with ⟨e, he, hlt0⟩
        rcases ih (i + 1) d.points i ⟨e, he, hlt0⟩ with
          ⟨j, hj, heq, hlt, hmin, hbefore⟩
        refine ⟨j + 1, by simpa using Nat.succ_lt_succ hj, ?_, ?_, ?_, ?_⟩
        · simp only [findMinAux, if_pos hp]
          rw [heq]
          omega
        · simp only [List.getD_cons_succ]
          exact lt_trans hlt hp
        · intro k hk
          cases k with
          | zero =>
            simp only [List.getD_cons_succ, List.getD_cons_zero]
            exact le_of_lt hlt
          | succ m =>
            simp only [List.getD_cons_succ]
            exact hmin m (by simpa using Nat.lt_of_succ_lt_succ hk)
        · intro k hk
          cases k with
          | zero =>
            simp only [List.getD_cons_succ, List.getD_cons_zero]
            exact hlt
          | succ m =>
            simp only [List.getD_cons_succ]
            exact hbefore m (Nat.lt_of_succ_lt_succ hk)
    · have hbp : bp ≤ d.points := le_of_not_lt hp
      have hex2 : ∃ e ∈ rest, e.points < bp := by
        rcases hex with ⟨e, he, hlt⟩
        rcases List.mem_cons.mp he with he | he
        · subst he; omega
        · exact ⟨e, he, hlt⟩
      rcases ih (i + 1) bp bi hex2 with ⟨j, hj, heq, hlt, hmin, hbefore⟩
      refine ⟨j + 1, by simpa using Nat.succ_lt_succ hj, ?_, ?_, ?_, ?_⟩
      · simp only [findMinAux, if_neg hp]
        rw [heq]
        omega
      · simp only [List.getD_cons_succ]
        exact hlt
      · intro k hk
        cases k with
        | zero =>
          simp only [List.getD_cons_succ, List.getD_cons_zero]
          exact le_trans (le_of_lt hlt) hbp
        | succ m =>
          simp only [List.getD_cons_succ]
          exact hmin m (by simpa using Nat.lt_of_succ_lt_succ hk)
      · intro k hk
        cases k with
        | zero =>
          simp only [List.getD_cons_succ, List.getD_cons_zero]
          exact lt_of_lt_of_le hlt hbp
        | succ m =>
          simp only [List.getD_cons_succ]
          exact hbefore m (Nat.lt_of_succ_lt_succ hk)

/-- C9: on every non-empty pool (with `u8`-ranged points), the MinPoints
strategy removes exactly one die: the returned singleton index is in range,
that die's points are minimal over the pool, and every earlier index has
strictly greater points (ties are broken by the first index encountered);
in particular, on `[(6,3), (8,1), (10,4), (12,2)]` it selects index 1. -/
theorem claim_C9 :
    (∀ dice : List Die, dice ≠ [] → (∀ d ∈ dice, d.points ≤ 255) →
      one_min_strategy dice = [find_min_points_die dice] ∧
      find_min_points_die dice < dice.length ∧
      (∀ k, k < dice.length →
        (dice.getD (find_min_points_die dice) Die.six).points ≤
          (dice.getD k Die.six).points) ∧
      (∀ k, k < find_min_points_die dice →
        (dice.getD (find_min_points_die dice) Die.six).points <
          (dice.getD k Die.six).points)) ∧
    one_min_strategy
      [⟨Faces.six, 3⟩, ⟨Faces.eight, 1⟩, ⟨Faces.ten, 4⟩, ⟨Faces.twelve, 2⟩] = [1] := by
  constructor
  · intro dice hne hbound
    refine ⟨rfl, ?_⟩
    by_cases hex : ∃ d ∈ dice, d.points < 255
    · rcases findMinAux_found dice 0 255 0 hex with ⟨j, hj, heq, _, hmin, hbefore⟩
      have hfm : find_min_points_die dice = j := by
        rw [find_min_points_die, heq]
        omega
      rw [hfm]
      exact ⟨hj, hmin, hbefore⟩
    · push_neg at hex
      have hfm : find_min_points_die dice = 0 :=
        findMinAux_const dice 0 255 0 hex
      rw [hfm]
      have hpos : 0 < dice.length := List.length_pos.mpr hne
      refine ⟨hpos, ?_, ?_⟩
      · intro k hk
        have h0 : (255 : Nat) ≤ (dice.getD 0 Die.six).points :=
          hex _ (getD_mem_of_lt dice 0 hpos)
        have h0b : (dice.getD 0 Die.six).points ≤ 255 :=
          hbound _ (getD_mem_of_lt dice 0 hpos)
        have hk2 : (255 : Nat) ≤ (dice.getD k Die.six).points :=
          hex _ (getD_mem_of_lt dice k hk)
        omega
      · intro k hk
        exact absurd hk (Nat.not_lt_zero k)
  · decide

/-- Witness for C9 at the concrete pool `[(6,2), (6,1)]` (minimum at index 1),
with the tie-break conclusion specialized to `k = 0`. -/
theorem claim_C9_witness :
    one_min_strategy [⟨Faces.six, 2⟩, ⟨Faces.six, 1⟩] =
      [find_min_points_die [⟨Faces.six, 2⟩, ⟨Faces.six, 1⟩]] ∧
    find_min_points_die [⟨Faces.six, 2⟩, ⟨Faces.six, 1⟩] <
      ([⟨Faces.six, 2⟩, ⟨Faces.six, 1⟩] : List Die).length ∧
    (([⟨Faces.six, 2⟩, ⟨Faces.six, 1⟩] : List Die).getD
        (find_min_points_die [⟨Faces.six, 2⟩, ⟨Faces.six, 1⟩]) Die.six).points ≤
      (([⟨Faces.six, 2⟩, ⟨Faces.six, 1⟩] : List Die).getD 0 Die.six).points :=
  ⟨(claim_C9.1 [⟨Faces.six, 2⟩, ⟨Faces.six, 1⟩] (by decide) (by decide)).1,
   (claim_C9.1 [⟨Faces.six, 2⟩, ⟨Faces.six, 1⟩] (by decide) (by decide)).2.1,
   (claim_C9.1 [⟨Faces.six, 2⟩, ⟨Faces.six, 1⟩] (by decide) (by decide)).2.2.1 0
     (by decide)⟩

/-! ### Helper lemmas: pools observed by strategies -/

theorem observedPools_points_lt (s : Strategy) :
    ∀ (fuel : Nat) (g : Nat → Nat) (pool P : List Die),
    P ∈ observedPools s fuel g pool → ∀ d ∈ P, d.points < d.faces.value := by
  intro fuel
  induction fuel with
  | zero =>
    intro g pool P hP
    simp [observedPools] at hP
  | succ fuel ih =>
    intro g pool P hP
    simp only [observedPools] at hP
    by_cases hemp : pool.isEmpty
    · rw [if_pos hemp] at hP
      simp at hP
    · rw [if_neg hemp] at hP
      rcases List.mem_cons.mp hP with hP | hP
      · subst hP
        exact rollAll_points_lt g pool
      · cases hrem : remove_dice (rollAll g pool) (s (rollAll g pool)) with
        | none =>
          rw [hrem] at hP
          simp at hP
        | some pr =>
          obtain ⟨p, pool2⟩ := pr
          rw [hrem] at hP
          exact ih (shiftRng g pool.length) pool2 P hP

/-- C10: in every simulated game, a strategy only ever observes pools that
have just been rolled (`roll_all` precedes every strategy call), and in every
such observed pool every die satisfies `0 ≤ points < faces` — even though each
freshly constructed die of `Game::new()` starts with `points` equal to its
face count, outside that range. -/
theorem claim_C10 :
    (∀ (s : Strategy) (g : Nat → Nat) (P : List Die),
      P ∈ observedPools s 15 g gameNewDice → ∀ d ∈ P, d.points < d.faces.value) ∧
    (∀ d ∈ gameNewDice, d.points = d.faces.value) := by
  constructor
  · intro s g P hP
    exact observedPools_points_lt s 15 g gameNewDice P hP
  · decide

/-- Witness for C10: the first pool observed (under the empty strategy and the
all-zeros stream) contains the die `(6, 0)`, whose points are below its face
count; and the fresh `Die::six()` has `points = faces = 6`. -/
theorem claim_C10_witness :
    ((⟨Faces.six, 0⟩ : Die).points < (⟨Faces.six, 0⟩ : Die).faces.value) ∧
    Die.six.points = Die.six.faces.value :=
  ⟨claim_C10.1 (fun _ => []) (fun _ => 0) (rollAll (fun _ => 0) gameNewDice)
      (by decide) ⟨Faces.six, 0⟩ (by decide),
   claim_C10.2 Die.six (by decide)⟩

/-! ### Helper lemmas: aggregates of `run_simulations` -/

theorem foldr_min_init (a b : Nat) (l : List Nat) :
    l.foldr min (min a b) = min b (l.foldr min a) := by
  induction l with
  | nil => simp [Nat.min_comm]
  | cons x xs ih =>
    simp only [List.foldr_cons, ih]
    rw [min_left_comm]

theorem foldr_max_init (a b : Nat) (l : List Nat) :
    l.foldr max (max a b) = max b (l.foldr max a) := by
  induction l with
  | nil => simp [Nat.max_comm]
  | cons x xs ih =>
    simp only [List.foldr_cons, ih]
    rw [max_left_comm]

theorem foldr_min_le_mem (l : List Nat) (a : Nat) : ∀ x ∈ l, l.foldr min a ≤ x := by
  induction l with
  | nil => simp
  | cons y ys ih =>
    intro x hx
    rcases List.mem_cons.mp hx with hx | hx
    · subst hx
      exact min_le_left _ _
    · exact le_trans (min_le_right _ _) (ih x hx)

theorem mem_le_foldr_max (l : List Nat) (a : Nat) : ∀ x ∈ l, x ≤ l.foldr max a := by
  induction l with
  | nil => simp
  | cons y ys ih =>
    intro x hx
    rcases List.mem_cons.mp hx with hx | hx
    · subst hx
      exact le_max_left _ _
    · exact le_trans (ih x hx) (le_max_right _ _)

theorem length_mul_foldr_min_le_sum (sc : List Nat) (a : Nat) :
    sc.length * sc.foldr min a ≤ sc.sum := by
  induction sc with
  | nil => simp
  | cons x xs ih =>
    have h2 : min x (xs.foldr min a) ≤ xs.foldr min a := min_le_right _ _
    have h1 : min x (xs.foldr min a) ≤ x := min_le_left _ _
    have h3 : xs.length * min x (xs.foldr min a) ≤ xs.length * xs.foldr min a :=
      Nat.mul_le_mul_left _ h2
    simp only [List.length_cons, List.sum_cons, List.foldr_cons]
    have h4 : (xs.length + 1) * min x (xs.foldr min a) =
        xs.length * min x (xs.foldr min a) + min x (xs.foldr min a) := by ring
    omega

theorem sum_le_length_mul_foldr_max (sc : List Nat) (a : Nat) :
    sc.sum ≤ sc.length * sc.foldr max a := by
  induction sc with
  | nil => simp
  | cons x xs ih =>
    have h2 : xs.foldr max a ≤ max x (xs.foldr max a) := le_max_right _ _
    have h1 : x ≤ max x (xs.foldr max a) := le_max_left _ _
    have h3 : xs.length * xs.foldr max a ≤ xs.length * max x (xs.foldr max a) :=
      Nat.mul_le_mul_left _ h2
    simp only [List.length_cons, List.sum_cons, List.foldr_cons]
    have h4 : (xs.length + 1) * max x (xs.foldr max a) =
        xs.length * max x (xs.foldr max a) + max x (xs.foldr max a) := by ring
    omega

theorem runSimAux_spec (s : Strategy) (seeds : Nat → Nat → Nat) :
    ∀ (k i total0 mn0 gr0 mx0 total mn gr mx : Nat),
    runSimAux s seeds i k (total0, mn0, gr0, mx0) = some (total, mn, gr, mx) →
    ∃ sc : List Nat, sc.length = k ∧
      (∀ j, j < k → simulate_game s (seeds (i + j)) = some (sc.getD j 0)) ∧
      total = total0 + sc.sum ∧
      mn = sc.foldr min mn0 ∧
      mx = sc.foldr max mx0 ∧
      gr = gr0 + sc.countP (fun p => p == 0) := by
  intro k
  induction k with
  | zero =>
    intro i t0 mn0 gr0 mx0 t mn gr mx h
    simp only [runSimAux, Option.some.injEq, Prod.mk.injEq] at h
    obtain ⟨h1, h2, h3, h4⟩ := h
    exact ⟨[], rfl, by intro j hj; omega, by simp [h1], by simp [h2], by simp [h4],
      by simp [h3]⟩
  | succ k ih =>
    intro i t0 mn0 gr0 mx0 t mn gr mx h
    simp only [runSimAux] at h
    cases hsim : simulate_game s (seeds i) with
    | none =>
      rw [hsim] at h
      simp at h
    | some p =>
      rw [hsim] at h
      rcases ih (i + 1) (t0 + p) (min mn0 p) (if p = 0 then gr0 + 1 else gr0)
        (max mx0 p) t mn gr mx h with ⟨sc, hlen, hsims, ht, hmn, hmx, hgr⟩
      refine ⟨p :: sc, by simp [hlen], ?_, ?_, ?_, ?_, ?_⟩
      · intro j hj
        cases j with
        | zero => simpa using hsim
        | succ m =>
          have hm := hsims m (Nat.lt_of_succ_lt_succ hj)
          have hea : (i + 1) + m = i + (m + 1) := by omega
          rw [hea] at hm
          simp only [List.getD_cons_succ]
          exact hm
      · rw [ht]
        simp only [List.sum_cons]
        omega
      · rw [hmn, List.foldr_cons]
        exact foldr_min_init mn0 p sc
      · rw [hmx, List.foldr_cons]
        exact foldr_max_init mx0 p sc
      · rw [hgr, List.countP_cons]
        by_cases hp : p = 0
        · simp [hp]
          omega
        · simp [hp]

theorem count_zero_trials :
    ∀ (sc : List Nat) (f : Nat → Option Nat) (i : Nat),
    (∀ j, j < sc.length → f (i + j) = some (sc.getD j 0)) →
    (List.range sc.length).countP (fun j => decide (f (i + j) = some 0)) =
      sc.countP (fun p => p == 0) := by
  intro sc
  induction sc with
  | nil =>
    intro f i _
    simp
  | cons p sc ih =>
    intro f i h
    have h0 : f (i + 0) = some p := by simpa using h 0 (by simp)
    have hsh : ∀ j, j < sc.length → f ((i + 1) + j) = some (sc.getD j 0) := by
      intro j hj
      have hm := h (j + 1) (by simpa using Nat.succ_lt_succ hj)
      have hea : i + (j + 1) = (i + 1) + j := by omega
      rw [hea] at hm
      simpa [List.getD_cons_succ] using hm
    have hihr := ih f (i + 1) hsh
    rw [List.length_cons, List.range_succ_eq_map, List.countP_cons, List.countP_map,
      List.countP_cons]
    have hq0 : (decide (f (i + 0) = some 0)) = (p == 0) := by
      rw [h0]
      by_cases hp : p = 0
      · simp [hp]
      · simp [hp]
    have hmap : (List.range sc.length).countP
        ((fun j => decide (f (i + j) = some 0)) ∘ Nat.succ) =
        sc.countP (fun q => q == 0) := by
      rw [← hihr]
      apply List.countP_congr
      intro a _
      simp only [Function.comp_apply]
      have hea : i + Nat.succ a = (i + 1) + a := by omega
      rw [hea]
    rw [hmap, hq0]

/-- C8 (amended): for any strategy and any trial count of *at least one*
(with zero trials the code reports `min = 255 > max = 0` — see the
counterexample), whenever `run_simulations` completes, the aggregates satisfy
`minimum ≤ average ≤ maximum` (average taken exactly, as
`total_points / n` in `ℚ`), and the gravy count equals the exact number of
trials whose score was 0. -/
theorem claim_C8_amended_thm :
    ∀ (s : Strategy) (seeds : Nat → Nat → Nat) (n total mn gr mx : Nat),
    1 ≤ n → run_simulations s n seeds = some (total, mn, gr, mx) →
    ((mn : ℚ) ≤ (total : ℚ) / (n : ℚ) ∧ (total : ℚ) / (n : ℚ) ≤ (mx : ℚ)) ∧
    gr = ((List.range n).filter
      (fun j => decide (simulate_game s (seeds j) = some 0))).length := by
  intro s seeds n total mn gr mx hn hrun
  rcases runSimAux_spec s seeds n 0 0 255 0 0 total mn gr mx hrun with
    ⟨sc, hlen, hsims, ht, hmn, hmx, hgr⟩
  have hnq : (0 : ℚ) < (n : ℚ) := by
    have : (0 : Nat) < n := hn
    exact_mod_cast this
  refine ⟨⟨?_, ?_⟩, ?_⟩
  · rw [le_div_iff₀ hnq]
    have h1 : sc.length * (sc.foldr min 255) ≤ sc.sum :=
      length_mul_foldr_min_le_sum sc 255
    have hnat : mn * n ≤ total := by
      rw [hmn, ht, ← hlen, Nat.mul_comm]
      omega
    exact_mod_cast hnat
  · rw [div_le_iff₀ hnq]
    have h1 : sc.sum ≤ sc.length * (sc.foldr max 0) :=
      sum_le_length_mul_foldr_max sc 0
    have hnat : total ≤ mx * n := by
      rw [hmx, ht, ← hlen, Nat.mul_comm]
      omega
    exact_mod_cast hnat
  · have hsims2 : ∀ j, j < sc.length →
        (fun m => simulate_game s (seeds m)) (0 + j) = some (sc.getD j 0) := by
      intro j hj
      rw [hlen] at hj
      exact hsims j hj
    have hc := count_zero_trials sc (fun m => simulate_game s (seeds m)) 0 hsims2
    rw [hlen] at hc
    simp only [Nat.zero_add] at hc
    rw [List.countP_eq_length_filter] at hc
    rw [hgr, ← hc]
    omega

/-- Witness for the amended C8: three trials of MinPoints under the seed
family `seeds i = (fun n => i + n · 7)` produce
`(total, min, gravies, max) = (33, 6, 0, 17)`, and indeed
`6 ≤ 33/3 = 11 ≤ 17` with no zero-score trial. -/
theorem claim_C8_witness :
    (((6 : Nat) : ℚ) ≤ ((33 : Nat) : ℚ) / ((3 : Nat) : ℚ) ∧
      ((33 : Nat) : ℚ) / ((3 : Nat) : ℚ) ≤ ((17 : Nat) : ℚ)) ∧
    (0 : Nat) = ((List.range 3).filter
      (fun j => decide (simulate_game one_min_strategy
        ((fun i n => i + n * 7) j) = some 0))).length :=
  claim_C8_amended_thm one_min_strategy (fun i n => i + n * 7) 3 33 6 0 17
    (by decide) (by decide)

/-- Witness for the amended C3 at 7 rounds and a concrete stream. -/
theorem claim_C3_witness :
    (∃ pool, runRounds (fun _ => []) 7 (fun _ => 1) gameNewDice 0 = some (pool, 0) ∧
      pool.length = 15) ∧
    simRounds (fun _ => []) 7 (fun _ => 1) gameNewDice = none :=
  claim_C3_amended_thm 7 (fun _ => 1)
